import Mathlib

/-
  A verification development for the horcrux package (src/horcrux.go).

  The package splits a secret into encrypted fragments, one per security
  question, using an external Shamir secret-sharing library, scrypt as the
  KDF and ChaCha20Poly1305 as the AEAD.  Those three collaborators are
  external libraries, out of scope of the repository; they are modelled
  here as an abstract parameter record `Prims`, and the two operations
  `Split` and `Recover` are shallow embeddings of the Go functions of the
  same names, parameterised by those primitives.  A small executable
  instantiation `toyPrims` is provided so that the theorems can be
  exercised on concrete inputs.
-/

namespace Horcrux

/-- Byte strings are modelled as lists of naturals (one per byte). -/
abbrev Bytes := List Nat

/-- chacha20.KeySize, the key length requested from scrypt in the Go code. -/
def keySize : Nat := 32

/-- saltLen constant from src/horcrux.go (length of the random salt). -/
def saltLen : Nat := 32

/-- Fragment (src/horcrux.go lines 30-41): an encrypted fragment of the
secret associated with a security question.  Field names follow the Go
struct: ID, K (threshold), N/R/P (scrypt parameters), Question, Nonce,
Salt, Value (the encrypted share). -/
@[ext]
structure Fragment where
  ID : Nat
  K : Nat
  N : Nat
  R : Nat
  P : Nat
  Question : String
  Nonce : Bytes
  Salt : Bytes
  Value : Bytes
deriving DecidableEq, Inhabited

/-- Answer (src/horcrux.go lines 50-53): a Fragment plus the plaintext
answer to its security question.  The Go struct embeds Fragment; here the
embedding becomes the parent structure. -/
@[ext]
structure Answer extends Fragment where
  Answer : String
deriving DecidableEq, Inhabited

/-- The external collaborators used by the Go code, as abstract parameters:
`sssSplit`/`sssCombine` model github.com/codahale/sss (Shamir secret
sharing; split takes n, k and the secret and yields shares indexed from 1,
combine takes a finite map from ids to shares), `scryptKey` models
scrypt.Key (password, salt, N, R, P, key length), `newChaCha` models the
ChaCha20Poly1305 constructor (which may reject a key), and `seal`/
`aeadOpen` model the AEAD with arguments key, nonce, message/ciphertext and
associated data.  Errors are modelled as strings (Go error messages). -/
structure Prims where
  sssSplit : Nat → Nat → Bytes → Except String (Nat → Bytes)
  sssCombine : (Nat → Option Bytes) → Bytes
  scryptKey : String → Bytes → Nat → Nat → Nat → Nat → Except String Bytes
  newChaCha : Bytes → Except String Unit
  aeadSeal : Bytes → Bytes → Bytes → Bytes → Bytes
  aeadOpen : Bytes → Bytes → Bytes → Bytes → Except String Bytes

/-- The error message built by Recover when an answer's threshold exceeds
the number of supplied answers (src/horcrux.go lines 122-126). -/
def insufficientMsg (k total : Nat) : String :=
  "horcrux: need at least " ++ toString k ++ " answers but only have " ++ toString total

/-- Pointwise update of a finite map, modelling `shares[a.ID] = v` on a Go
map (later writes overwrite earlier ones). -/
def updMap (m : Nat → Option Bytes) (i : Nat) (v : Bytes) : Nat → Option Bytes :=
  fun j => if j = i then some v else m j

/-- The body of Split's loop over the question/answer pairs
(src/horcrux.go lines 73-111).  `i` is the sequential fragment id, `c`
counts reads from the random source `rng` (the Go code reads a salt and
then a nonce per iteration from crypto/rand).  Any error aborts the whole
loop, mirroring the early `return nil, err` statements. -/
def splitLoop (pr : Prims) (k n r p : Nat) (sh : Nat → Bytes)
    (rng : Nat → Except String Bytes) :
    List (String × String) → Nat → Nat → Except String (List Fragment)
  | [], _, _ => .ok []
  | (q, a) :: rest, i, c =>
    match rng c with
    | .error e => .error e
    | .ok salt =>
      match pr.scryptKey a salt n r p keySize with
      | .error e => .error e
      | .ok key =>
        match rng (c + 1) with
        | .error e => .error e
        | .ok nonce =>
          match pr.newChaCha key with
          | .error e => .error e
          | .ok _ =>
            match splitLoop pr k n r p sh rng rest (i + 1) (c + 2) with
            | .error e => .error e
            | .ok fs =>
              .ok ({ ID := i, K := k, N := n, R := r, P := p, Question := q,
                     Salt := salt, Nonce := nonce,
                     Value := pr.aeadSeal key nonce (sh i) [] } :: fs)

/-- Split (src/horcrux.go lines 65-114).  The question/answer map is
modelled as the sequence of pairs in the order Go's map iteration visits
them.  The returned pair models Go's `([]Fragment, error)` result: exactly
one component is present, `return nil, err` becomes `(none, some e)` and
the final `return f, nil` becomes `(some fs, none)`. -/
def Split (pr : Prims) (secret : Bytes) (questions : List (String × String))
    (k n r p : Nat) (rng : Nat → Except String Bytes) :
    Option (List Fragment) × Option String :=
  match pr.sssSplit questions.length k secret with
  | .error e => (none, some e)
  | .ok sh =>
    match splitLoop pr k n r p sh rng questions 1 0 with
    | .error e => (none, some e)
    | .ok fs => (some fs, none)

/-- The per-answer key derivation and authenticated decryption performed by
Recover's loop after the threshold check (src/horcrux.go lines 128-142):
scrypt on the claimed answer text and the stored salt/parameters, cipher
construction, then AEAD open with nil associated data. -/
def answerShare (pr : Prims) (a : Answer) : Except String Bytes :=
  match pr.scryptKey a.Answer a.Salt a.N a.R a.P keySize with
  | .error e => .error e
  | .ok key =>
    match pr.newChaCha key with
    | .error e => .error e
    | .ok _ => pr.aeadOpen key a.Nonce a.Value []

/-- Recover's loop over the answers (src/horcrux.go lines 121-145).
`total` is `len(answers)` of the original call; each iteration first
checks `a.K > len(answers)`, then derives and decrypts, storing the
recovered share under `a.ID` (overwriting a previous entry). -/
def recoverLoop (pr : Prims) (total : Nat) :
    List Answer → (Nat → Option Bytes) → Except String (Nat → Option Bytes)
  | [], m => .ok m
  | a :: rest, m =>
    if total < a.K then .error (insufficientMsg a.K total)
    else
      match answerShare pr a with
      | .error e => .error e
      | .ok v => recoverLoop pr total rest (updMap m a.ID v)

/-- Recover (src/horcrux.go lines 118-148).  Starts from an empty share
map; on loop success the external combine primitive is applied to the
accumulated map and returned with a nil error. -/
def Recover (pr : Prims) (answers : List Answer) : Option Bytes × Option String :=
  match recoverLoop pr answers.length answers (fun _ => none) with
  | .error e => (none, some e)
  | .ok m => (some (pr.sssCombine m), none)

/-- One lowercase hexadecimal digit, as produced by Go's %x verb. -/
def hexDigit (n : Nat) : Char :=
  if n < 10 then Char.ofNat (48 + n) else Char.ofNat (87 + n)

/-- Two lowercase hex digits for one byte, as Go's %x prints each byte of
a byte slice. -/
def hexByte (b : Nat) : List Char := [hexDigit (b / 16), hexDigit (b % 16)]

/-- Go's %x formatting of a byte slice. -/
def hexEncode (bs : Bytes) : String := String.mk ((bs.map hexByte).flatten)

/-- Fragment.String (src/horcrux.go lines 43-46):
Sprintf of "%d/%d:%s:%d:%d:%d:%x:%x" applied to ID, K, Question, N, R, P,
Salt, Value.  The nonce is not printed. -/
def Fragment.string (f : Fragment) : String :=
  toString f.ID ++ "/" ++ toString f.K ++ ":" ++ f.Question ++ ":" ++
    toString f.N ++ ":" ++ toString f.R ++ ":" ++ toString f.P ++ ":" ++
    hexEncode f.Salt ++ ":" ++ hexEncode f.Value

/-- Answer.String (src/horcrux.go lines 55-57): Sprintf of "%v:%s" applied
to the embedded Fragment and the answer text. -/
def Answer.string (a : Horcrux.Answer) : String :=
  a.toFragment.string ++ ":" ++ a.Answer

/-
  A concrete executable instantiation of the primitives, used to evaluate
  the theorems below on concrete inputs.  It satisfies the interface
  contracts the Go code relies on: the toy secret sharing hands every
  share holder the secret itself (so that combining any nonempty
  collection of shares recovers it), the toy KDF is deterministic and
  injective in the password for a fixed salt, and the toy AEAD records key,
  nonce and associated data in the ciphertext so that opening inverts
  sealing exactly when they all match.
-/

/-- The bytes of a string (one per character code). -/
def strBytes (s : String) : List Nat := s.toList.map Char.toNat

/-- Toy Shamir split: validates the threshold like github.com/codahale/sss
and gives every share index a copy of the secret. -/
def toySssSplit (n k : Nat) (secret : Bytes) : Except String (Nat → Bytes) :=
  if k ≤ 1 then .error "K must be > 1"
  else if n < k then .error "N must be >= K"
  else .ok (fun _ => secret)

/-- Toy Shamir combine: the first share present among ids 0..255. -/
def toyCombine (m : Nat → Option Bytes) : Bytes :=
  ((List.range 256).findSome? m).getD []

/-- The key the toy KDF derives: the password length followed by the
password bytes and the salt, so that distinct (password, salt) pairs give
distinct keys. -/
def toyKey (pass : String) (salt : Bytes) : Bytes :=
  pass.length :: (strBytes pass ++ salt)

/-- Toy KDF: deterministic and injective in the (password, salt) pair. -/
def toyScrypt (pass : String) (salt : Bytes) (_n _r _p _len : Nat) :
    Except String Bytes :=
  .ok (toyKey pass salt)

/-- The chacha20poly1305 authentication failure message. -/
def authFail : String := "message authentication failed"

/-- Toy AEAD seal: length-prefixed key, nonce and associated data followed
by the message. -/
def toySeal (key nonce msg ad : Bytes) : Bytes :=
  key.length :: nonce.length :: ad.length :: (key ++ nonce ++ ad ++ msg)

/-- Toy AEAD open: succeeds exactly when the ciphertext was sealed under
the same key, nonce and associated data, and then returns the message. -/
def toyOpen (key nonce c ad : Bytes) : Except String Bytes :=
  match c with
  | kl :: nl :: al :: rest =>
    if kl = key.length ∧ nl = nonce.length ∧ al = ad.length ∧
        rest.take kl = key ∧ (rest.drop kl).take nl = nonce ∧
        ((rest.drop kl).drop nl).take al = ad
    then .ok (((rest.drop kl).drop nl).drop al)
    else .error authFail
  | _ => .error authFail

/-- The toy primitive bundle. -/
def toyPrims : Prims :=
  { sssSplit := toySssSplit, sssCombine := toyCombine, scryptKey := toyScrypt,
    newChaCha := fun _ => .ok (), aeadSeal := toySeal, aeadOpen := toyOpen }

/-- A deterministic stand-in for the random source. -/
def toyRng (c : Nat) : Except String Bytes := .ok [c, c + 1]

/-- Inverting a successful Split: the share-split primitive succeeded and
the per-question loop succeeded on its shares. -/
theorem split_ok_elim {pr : Prims} {secret : Bytes}
    {qs : List (String × String)} {k n r p : Nat}
    {rng : Nat → Except String Bytes} {fs : List Fragment}
    (h : Split pr secret qs k n r p rng = (some fs, none)) :
    ∃ sh, pr.sssSplit qs.length k secret = .ok sh ∧
      splitLoop pr k n r p sh rng qs 1 0 = .ok fs := by
  unfold Split at h
  split at h
  next e heq => simp at h
  next sh heq =>
    split at h
    next e heq2 => simp at h
    next fs2 heq2 =>
      simp at h
      exact ⟨sh, heq, h ▸ heq2⟩

/-- Characterisation of a successful split loop: one fragment per
question, with sequential ids from `i0`, the supplied threshold and scrypt
parameters, the question text, and a value sealing the share of the same
index under the key scrypt derived from the question's answer. -/
theorem splitLoop_spec (pr : Prims) (k n r p : Nat) (sh : Nat → Bytes)
    (rng : Nat → Except String Bytes) :
    ∀ (qs : List (String × String)) (i0 c : Nat) (fs : List Fragment),
      splitLoop pr k n r p sh rng qs i0 c = .ok fs →
      fs.length = qs.length ∧
      ∀ j, j < qs.length →
        ∃ salt nonce key,
          pr.scryptKey (qs.getD j ("", "")).2 salt n r p keySize = .ok key ∧
          pr.newChaCha key = .ok () ∧
          fs.getD j default =
            { ID := i0 + j, K := k, N := n, R := r, P := p,
              Question := (qs.getD j ("", "")).1, Salt := salt, Nonce := nonce,
              Value := pr.aeadSeal key nonce (sh (i0 + j)) [] } := by
  intro qs
  induction qs with
  | nil =>
    intro i0 c fs h
    simp only [splitLoop] at h
    obtain rfl : ([] : List Fragment) = fs := by simpa using h
    simp
  | cons qa rest ih =>
    intro i0 c fs h
    obtain ⟨q, a⟩ := qa
    cases h1 : rng c with
    | error e => simp [splitLoop, h1] at h
    | ok salt =>
    cases h2 : pr.scryptKey a salt n r p keySize with
    | error e => simp [splitLoop, h1, h2] at h
    | ok key =>
    cases h3 : rng (c + 1) with
    | error e => simp [splitLoop, h1, h2, h3] at h
    | ok nonce =>
    cases h4 : pr.newChaCha key with
    | error e => simp [splitLoop, h1, h2, h3, h4] at h
    | ok u =>
    cases h5 : splitLoop pr k n r p sh rng rest (i0 + 1) (c + 2) with
    | error e => simp [splitLoop, h1, h2, h3, h4, h5] at h
    | ok fs' =>
      cases u
      simp only [splitLoop, h1, h2, h3, h4, h5, Except.ok.injEq] at h
      obtain ⟨hlen, hspec⟩ := ih (i0 + 1) (c + 2) fs' h5
      subst h
      refine ⟨by simpa using hlen, ?_⟩
      intro j hj
      cases j with
      | zero => exact ⟨salt, nonce, key, h2, h4, by simp⟩
      | succ j' =>
        have hj' : j' < rest.length := by simpa using hj
        obtain ⟨salt', nonce', key', hs, hn, hv⟩ := hspec j' hj'
        refine ⟨salt', nonce', key', hs, hn, ?_⟩
        have e1 : i0 + 1 + j' = i0 + (j' + 1) := by omega
        rw [e1] at hv
        simpa using hv

/-- Processing a prefix of answers that all pass the threshold check and
decrypt successfully just accumulates their shares into the map. -/
theorem recoverLoop_append (pr : Prims) (total : Nat) (val : Answer → Bytes) :
    ∀ (pre rest : List Answer) (m : Nat → Option Bytes),
      (∀ b ∈ pre, b.K ≤ total ∧ answerShare pr b = .ok (val b)) →
      recoverLoop pr total (pre ++ rest) m =
        recoverLoop pr total rest
          (pre.foldl (fun m' b => updMap m' b.ID (val b)) m) := by
  intro pre
  induction pre with
  | nil => intro rest m _; simp
  | cons b pre' ih =>
    intro rest m hpre
    have hb := hpre b (by simp)
    have hnot : ¬ (total < b.K) := Nat.not_lt.mpr hb.1
    simp only [List.cons_append, recoverLoop, if_neg hnot, hb.2, List.foldl_cons]
    exact ih rest (updMap m b.ID (val b)) (fun x hx => hpre x (by simp [hx]))

/-- Looking up the map accumulated by the recover loop: the entry for id
`j` is the share of the last answer carrying that id, if any. -/
theorem lookup_foldl (val : Answer → Bytes) :
    ∀ (ans : List Answer) (m : Nat → Option Bytes) (j : Nat),
      (ans.foldl (fun m' a => updMap m' a.ID (val a)) m) j =
        match ans.reverse.find? (fun x => x.ID == j) with
        | some a => some (val a)
        | none => m j := by
  intro ans
  induction ans with
  | nil => intro m j; simp
  | cons a rest ih =>
    intro m j
    simp only [List.foldl_cons, List.reverse_cons, List.find?_append]
    rw [ih]
    cases hf : rest.reverse.find? (fun x => x.ID == j) with
    | some b => simp
    | none =>
      simp only [Option.none_or]
      by_cases hj : a.ID = j
      · simp [List.find?, hj, updMap]
      · have hb : (a.ID == j) = false := by simpa using hj
        simp [List.find?, hb, updMap, Ne.symm hj]

/-- Taking the length of the left part of an append returns it. -/
theorem take_len_append (x y : Bytes) : (x ++ y).take x.length = x :=
  List.take_left x y

/-- Dropping the length of the left part of an append returns the right
part. -/
theorem drop_len_append (x y : Bytes) : (x ++ y).drop x.length = y :=
  List.drop_left x y

/-- The toy AEAD inverts sealing under matching key, nonce and associated
data. -/
theorem toyOpen_toySeal (key nonce msg ad : Bytes) :
    toyOpen key nonce (toySeal key nonce msg ad) ad = .ok msg := by
  have e : key ++ nonce ++ ad ++ msg = key ++ (nonce ++ (ad ++ msg)) := by
    simp [List.append_assoc]
  have h1 : (key ++ nonce ++ ad ++ msg).take key.length = key := by
    rw [e]; exact take_len_append key _
  have h2 : (key ++ nonce ++ ad ++ msg).drop key.length = nonce ++ (ad ++ msg) := by
    rw [e]; exact drop_len_append key _
  have h3 : (nonce ++ (ad ++ msg)).take nonce.length = nonce := take_len_append nonce _
  have h4 : (nonce ++ (ad ++ msg)).drop nonce.length = ad ++ msg := drop_len_append nonce _
  have h5 : (ad ++ msg).take ad.length = ad := take_len_append ad msg
  have h6 : (ad ++ msg).drop ad.length = msg := drop_len_append ad msg
  simp [toySeal, toyOpen, h1, h2, h3, h4, h5, h6]

/-- Opening a toy-sealed ciphertext under a different key fails with the
authentication error. -/
theorem toyOpen_wrong_key {key' key : Bytes} (nonce msg ad : Bytes)
    (hne : key' ≠ key) :
    toyOpen key' nonce (toySeal key nonce msg ad) ad = .error authFail := by
  have e : key ++ nonce ++ ad ++ msg = key ++ (nonce ++ (ad ++ msg)) := by
    simp [List.append_assoc]
  have h1 : (key ++ nonce ++ ad ++ msg).take key.length = key := by
    rw [e]; exact take_len_append key _
  have hne' : key ≠ key' := Ne.symm hne
  simp [toySeal, toyOpen, h1, hne']

/-- The toy seal is injective in key, nonce and message for a fixed
associated data. -/
theorem toySeal_inj (k1 n1 m1 k2 n2 m2 ad : Bytes)
    (h : toySeal k1 n1 m1 ad = toySeal k2 n2 m2 ad) :
    k1 = k2 ∧ n1 = n2 ∧ m1 = m2 := by
  unfold toySeal at h
  injection h with hl h
  injection h with hn h
  injection h with ha h
  have e1 : k1 ++ n1 ++ ad ++ m1 = k1 ++ (n1 ++ (ad ++ m1)) := by
    simp [List.append_assoc]
  have e2 : k2 ++ n2 ++ ad ++ m2 = k2 ++ (n2 ++ (ad ++ m2)) := by
    simp [List.append_assoc]
  rw [e1, e2] at h
  obtain ⟨hk, h⟩ := List.append_inj h hl
  obtain ⟨hn2, h⟩ := List.append_inj h hn
  exact ⟨hk, hn2, List.append_cancel_left h⟩

/-- The toy open succeeds only on ciphertexts that are exactly the seal of
the returned message under the supplied key, nonce and associated data. -/
theorem toyOpen_tidy (key2 nonce2 c ad v : Bytes)
    (h : toyOpen key2 nonce2 c ad = .ok v) : c = toySeal key2 nonce2 v ad := by
  cases c with
  | nil => simp [toyOpen] at h
  | cons kl c1 =>
  cases c1 with
  | nil => simp [toyOpen] at h
  | cons nl c2 =>
  cases c2 with
  | nil => simp [toyOpen] at h
  | cons al rest =>
    rw [toyOpen] at h
    split at h
    case isTrue hcond =>
      obtain ⟨c1, c2, c3, c4, c5, c6⟩ := hcond
      have hv : ((rest.drop kl).drop nl).drop al = v := by
        injection h
      have hr : rest = key2 ++ (nonce2 ++ (ad ++ v)) := by
        conv_lhs => rw [← List.take_append_drop kl rest]
        rw [c4]
        congr 1
        conv_lhs => rw [← List.take_append_drop nl (rest.drop kl)]
        rw [c5]
        congr 1
        conv_lhs => rw [← List.take_append_drop al ((rest.drop kl).drop nl)]
        rw [c6, hv]
      rw [toySeal, hr, c1, c2, c3]
      simp [List.append_assoc]
    case isFalse => simp at h

/-- The bytes of a string determine it. -/
theorem strBytes_inj {w1 w2 : String} (h : strBytes w1 = strBytes w2) :
    w1 = w2 := by
  apply String.ext
  have hinj : Function.Injective Char.toNat := by
    intro a b hab
    rw [← Char.ofNat_toNat a, ← Char.ofNat_toNat b, hab]
  exact List.map_injective_iff.mpr hinj h

/-- The toy KDF is collision free: two derivations (with any parameters)
that agree on the derived key agree on the password and the salt. -/
theorem toyScrypt_jointInj (n r p L n2 r2 p2 L2 : Nat) (w1 w2 : String)
    (s1 s2 k1 k2 : Bytes)
    (h1 : toyScrypt w1 s1 n r p L = .ok k1)
    (h2 : toyScrypt w2 s2 n2 r2 p2 L2 = .ok k2) (h : k1 = k2) :
    w1 = w2 ∧ s1 = s2 := by
  injection h1 with h1'
  injection h2 with h2'
  subst h1'
  subst h2'
  unfold toyKey at h
  injection h with hl hb
  have hsl : (strBytes w1).length = (strBytes w2).length := by
    have e1 : (strBytes w1).length = w1.length := by
      rw [strBytes, List.length_map]; rfl
    have e2 : (strBytes w2).length = w2.length := by
      rw [strBytes, List.length_map]; rfl
    rw [e1, e2, hl]
  obtain ⟨hw, hs⟩ := List.append_inj hb hsl
  exact ⟨strBytes_inj hw, hs⟩

/-- A list of optional values that agree on a constant wherever they are
present has that constant as its first present value, provided one is
present. -/
theorem findSome_eq_of_mem {α : Type} (c : α) :
    ∀ (L : List Nat) (m : Nat → Option α),
      (∀ j ∈ L, m j = none ∨ m j = some c) →
      ∀ j0 ∈ L, m j0 = some c → L.findSome? m = some c := by
  intro L
  induction L with
  | nil => intro m _ j0 hj0; simp at hj0
  | cons x L ih =>
    intro m hall j0 hj0 hm
    rcases hall x (by simp) with hx | hx
    · have hj0L : j0 ∈ L := by
        rcases List.mem_cons.mp hj0 with rfl | hmem
        · rw [hx] at hm; simp at hm
        · exact hmem
      rw [List.findSome?_cons, hx]
      exact ih m (fun j hj => hall j (by simp [hj])) j0 hj0L hm
    · rw [List.findSome?_cons, hx]

/-- The toy combine satisfies the Shamir recombination contract: a map
holding the share (here: the secret itself) on at least one id in [1, n0]
and nothing elsewhere recombines to the secret. -/
theorem toyCombine_contract (secret : Bytes) (n0 k0 : Nat) (hn : n0 ≤ 255)
    (hk : 1 ≤ k0) (m : Nat → Option Bytes) (ids : List Nat)
    (hnd : ids.Nodup) (hrange : ∀ j ∈ ids, 1 ≤ j ∧ j ≤ n0)
    (hcard : k0 ≤ ids.length)
    (hin : ∀ j ∈ ids, m j = some secret)
    (hout : ∀ j, j ∉ ids → m j = none) : toyCombine m = secret := by
  cases ids with
  | nil => simp at hcard; omega
  | cons j0 rest =>
    have hj0 : j0 ∈ j0 :: rest := by simp
    have hj0r : j0 ∈ List.range 256 := by
      have := hrange j0 hj0
      exact List.mem_range.mpr (by omega)
    have hfind : (List.range 256).findSome? m = some secret := by
      refine findSome_eq_of_mem secret (List.range 256) m ?_ j0 hj0r (hin j0 hj0)
      intro j _
      by_cases hj : j ∈ j0 :: rest
      · exact Or.inr (hin j hj)
      · exact Or.inl (hout j hj)
    simp [toyCombine, hfind]

/-- If some answer in the list can never decrypt, the recover loop fails
with some error. -/
theorem recoverLoop_mem_error (pr : Prims) (total : Nat) :
    ∀ (ans : List Answer) (m : Nat → Option Bytes) (b : Answer),
      b ∈ ans → (∀ v, answerShare pr b ≠ .ok v) →
      ∃ e, recoverLoop pr total ans m = .error e := by
  intro ans
  induction ans with
  | nil => intro m b hb _; simp at hb
  | cons a rest ih =>
    intro m b hb hbad
    by_cases hk : total < a.K
    · exact ⟨insufficientMsg a.K total, by simp [recoverLoop, hk]⟩
    · cases ha : answerShare pr a with
      | error e => exact ⟨e, by simp [recoverLoop, hk, ha]⟩
      | ok v =>
        rcases List.mem_cons.mp hb with rfl | hmem
        · exact absurd ha (hbad v)
        · obtain ⟨e, he⟩ := ih (updMap m a.ID v) b hmem hbad
          exact ⟨e, by simp [recoverLoop, hk, ha, he]⟩

/-
  Concrete values used to exercise the theorems below.
-/

/-- A two-question split input. -/
def qsW : List (String × String) := [("q1", "a1"), ("q2", "a2")]

/-- The fragments produced by splitting [1, 2, 3] over qsW with threshold 2
under the toy primitives. -/
def fsW : List Fragment := (Split toyPrims [1, 2, 3] qsW 2 16 8 1 toyRng).1.getD []

/-- An answer that decrypts successfully under the toy primitives. -/
def goodAnswer : Answer :=
  { ID := 1, K := 1, N := 1, R := 1, P := 1, Question := "q", Nonce := [0],
    Salt := [7], Value := toySeal (toyKey "a" [7]) [0] [5] [], Answer := "a" }

/-- An answer whose threshold exceeds any two-element answer list. -/
def highK : Answer :=
  { ID := 2, K := 3, N := 1, R := 1, P := 1, Question := "q2", Nonce := [0],
    Salt := [8], Value := [9], Answer := "b" }

/-- An answer sealed under the key for text "y" but carrying text "x", so
its authenticated decryption fails. -/
def badAuth : Answer :=
  { ID := 1, K := 1, N := 1, R := 1, P := 1, Question := "q1", Nonce := [0],
    Salt := [7], Value := toySeal (toyKey "y" [7]) [0] [5] [], Answer := "x" }

/-- Two answers, the first failing authentication, the second with a
threshold larger than the list length. -/
def ansC2 : List Answer := [badAuth, highK]

/-- Two answers sharing fragment ID 1 whose values decrypt to [1] and [2]
respectively. -/
def dupA : Answer :=
  { ID := 1, K := 2, N := 1, R := 1, P := 1, Question := "q", Nonce := [0],
    Salt := [7], Value := toySeal (toyKey "a" [7]) [0] [1] [], Answer := "a" }

/-- Second answer with the same ID as dupA but decrypting to [2]. -/
def dupB : Answer :=
  { ID := 1, K := 2, N := 1, R := 1, P := 1, Question := "q", Nonce := [0],
    Salt := [7], Value := toySeal (toyKey "a" [7]) [0] [2] [], Answer := "a" }

/-- Share function for the duplicate-id example. -/
def valDup : Answer → Bytes := fun x => if x.Value = dupA.Value then [1] else [2]

/-
  The claims.
-/

/-- C8: Fragment.String yields the colon-delimited record
"id/threshold:question:N:R:P:hex(salt):hex(ciphertext)" — matching the
repository's own test vector — the nonce is not included (the string is
invariant under replacing it), the general shape lists id/K, the question,
the KDF parameters in order N, R, P, then hex salt and hex ciphertext, and
Answer.String appends the plaintext answer after a final colon. -/
theorem fragment_string_format :
    Fragment.string { ID := 1, K := 5, N := 2, R := 3, P := 4, Question := "Q",
                      Nonce := [10], Salt := [11], Value := [12] } = "1/5:Q:2:3:4:0b:0c" ∧
    (∀ (f : Fragment) (nonce : Bytes),
      Fragment.string { f with Nonce := nonce } = Fragment.string f) ∧
    (∀ f : Fragment, Fragment.string f =
      toString f.ID ++ "/" ++ toString f.K ++ ":" ++ f.Question ++ ":" ++
      toString f.N ++ ":" ++ toString f.R ++ ":" ++ toString f.P ++ ":" ++
      hexEncode f.Salt ++ ":" ++ hexEncode f.Value) ∧
    (∀ a : Answer, Answer.string a = Fragment.string a.toFragment ++ ":" ++ a.Answer) :=
  ⟨by decide, fun f nonce => rfl, fun f => rfl, fun a => rfl⟩

/-- C9: Recover on an empty answer list runs no per-answer check or
decryption, applies the combine primitive to the empty share map and
returns its result with a nil error (in particular it never reports the
insufficient-answers error). -/
theorem recover_empty_answers (pr : Prims) :
    Recover pr [] = (some (pr.sssCombine (fun _ => none)), none) := rfl

/-- C10: the AEAD calls carry no associated data (the embedding passes []
for it, as the Go code passes nil), so the per-answer key derivation and
decryption ignore the Question, ID and K fields entirely: any answer that
decrypts successfully still decrypts to the same bytes, with no
authentication failure, after those fields are changed arbitrarily. -/
theorem metadata_not_bound (pr : Prims) (a : Answer) (q : String) (i k : Nat)
    (v : Bytes) (hdec : answerShare pr a = .ok v) :
    answerShare pr { a with Question := q, ID := i, K := k } = .ok v := hdec

/-- Witness for C10: mangling the metadata of a concretely decryptable
answer leaves its decryption output intact. -/
theorem metadata_not_bound_witness :
    answerShare toyPrims { goodAnswer with Question := "z", ID := 42, K := 99 } =
      .ok [5] :=
  metadata_not_bound toyPrims goodAnswer "z" 42 99 [5] rfl

/-- C7: Recover is deterministic and stateless: two answer lists whose
entries agree on every field (including the embedded fragment's fields)
produce identical results; the embedding of Recover takes no random
source, mirroring that the Go code consumes no randomness there. -/
theorem recover_deterministic (pr : Prims) (xs ys : List Answer)
    (hlen : xs.length = ys.length)
    (hfields : ∀ i, i < xs.length →
      (xs.getD i default).ID = (ys.getD i default).ID ∧
      (xs.getD i default).K = (ys.getD i default).K ∧
      (xs.getD i default).N = (ys.getD i default).N ∧
      (xs.getD i default).R = (ys.getD i default).R ∧
      (xs.getD i default).P = (ys.getD i default).P ∧
      (xs.getD i default).Question = (ys.getD i default).Question ∧
      (xs.getD i default).Nonce = (ys.getD i default).Nonce ∧
      (xs.getD i default).Salt = (ys.getD i default).Salt ∧
      (xs.getD i default).Value = (ys.getD i default).Value ∧
      (xs.getD i default).Answer = (ys.getD i default).Answer) :
    Recover pr xs = Recover pr ys := by
  have hxy : xs = ys := by
    apply List.ext_getElem hlen
    intro i h1 h2
    have ex : xs.getD i default = xs[i] := List.getD_eq_getElem xs default h1
    have ey : ys.getD i default = ys[i] := List.getD_eq_getElem ys default h2
    obtain ⟨f1, f2, f3, f4, f5, f6, f7, f8, f9, f10⟩ := hfields i h1
    rw [← ex, ← ey]
    apply Answer.ext <;> assumption
  rw [hxy]

/-- Witness for C7: two syntactically different but field-equal singleton
answer lists recover identically. -/
theorem recover_deterministic_witness :
    Recover toyPrims [{ ID := 1, K := 1, N := 2, R := 3, P := 4, Question := "w",
                        Nonce := [1], Salt := [2], Value := [3], Answer := "t" }] =
    Recover toyPrims [{ Answer := "t", ID := 1, K := 1, N := 2, R := 3, P := 4,
                        Question := "w", Nonce := [1], Salt := [2], Value := [3] }] :=
  recover_deterministic toyPrims _ _ rfl (by decide)

/-- C4: whenever a step of Split fails the whole call returns no fragments
and the error: an error of the share-split primitive is propagated
unmodified with a nil fragment list; an error anywhere in the
per-question loop (randomness, KDF, cipher construction) likewise yields
a nil fragment list with that error; and every call returns either a
fragment list with nil error or no fragments with an error — never a
partial list alongside an error. -/
theorem split_error_propagation (pr : Prims) (secret : Bytes)
    (qs : List (String × String)) (k n r p : Nat)
    (rng : Nat → Except String Bytes) :
    (∀ e, pr.sssSplit qs.length k secret = .error e →
      Split pr secret qs k n r p rng = (none, some e)) ∧
    (∀ sh e, pr.sssSplit qs.length k secret = .ok sh →
      splitLoop pr k n r p sh rng qs 1 0 = .error e →
      Split pr secret qs k n r p rng = (none, some e)) ∧
    ((∃ fs, Split pr secret qs k n r p rng = (some fs, none)) ∨
      (∃ e, Split pr secret qs k n r p rng = (none, some e))) := by
  refine ⟨?_, ?_, ?_⟩
  · intro e he; unfold Split; rw [he]
  · intro sh e hsh hloop; unfold Split; rw [hsh]; simp [hloop]
  · cases h1 : pr.sssSplit qs.length k secret with
    | error e => exact Or.inr ⟨e, by unfold Split; rw [h1]⟩
    | ok sh =>
      cases h2 : splitLoop pr k n r p sh rng qs 1 0 with
      | error e => exact Or.inr ⟨e, by unfold Split; rw [h1]; simp [h2]⟩
      | ok fs => exact Or.inl ⟨fs, by unfold Split; rw [h1]; simp [h2]⟩

/-- Witness for C4: the toy share-split primitive rejects threshold 1 and
Split propagates its error with no fragments. -/
theorem split_error_propagation_witness :
    Split toyPrims [1] [("q", "a")] 1 4 8 1 toyRng = (none, some "K must be > 1") :=
  (split_error_propagation toyPrims [1] [("q", "a")] 1 4 8 1 toyRng).1
    "K must be > 1" rfl

/-- C2 counterexample: an answer list whose second entry requires 3
answers while only 2 are supplied, yet whose first entry fails
authentication.  Recover performs the key derivation and decryption of
the first answer and fails with the authentication error — not with the
insufficient-answers error the claim requires, and not before attempting
decryption. -/
theorem recover_threshold_not_failfast_cex :
    ansC2.length < highK.K ∧ highK ∈ ansC2 ∧
    Recover toyPrims ansC2 = (none, some authFail) ∧
    authFail ≠ insufficientMsg highK.K ansC2.length ∧
    authFail ≠ insufficientMsg badAuth.K ansC2.length := by
  refine ⟨by decide, by decide, rfl, by decide, by decide⟩

/-- C2 (amended): the threshold check is performed per answer, in list
order, interleaved with decryption.  If an answer's K exceeds the number
of supplied answers and every answer before it passes its own check and
decrypts successfully, then Recover fails with the insufficient-answers
error reporting that answer's K and the list length; the earlier answers
do undergo key derivation and decryption. -/
theorem recover_threshold_check_sequential (pr : Prims) (pre post : List Answer)
    (a : Answer) (val : Answer → Bytes)
    (hk : (pre ++ a :: post).length < a.K)
    (hpre : ∀ b ∈ pre, b.K ≤ (pre ++ a :: post).length ∧
      answerShare pr b = .ok (val b)) :
    Recover pr (pre ++ a :: post) =
      (none, some (insufficientMsg a.K (pre ++ a :: post).length)) := by
  unfold Recover
  rw [recoverLoop_append pr (pre ++ a :: post).length val pre (a :: post) _ hpre]
  have hk' : pre.length + (post.length + 1) < a.K := by simpa using hk
  simp [recoverLoop, hk']

/-- Witness for C2 (amended): a decryptable first answer followed by one
demanding 3 of 2 answers makes Recover fail with the insufficient error. -/
theorem recover_threshold_check_sequential_witness :
    Recover toyPrims [goodAnswer, highK] = (none, some (insufficientMsg 3 2)) :=
  recover_threshold_check_sequential toyPrims [goodAnswer] [] highK
    (fun _ => [5]) (by decide)
    (fun b hb => by
      rcases List.mem_singleton.mp hb with rfl
      exact ⟨by decide, rfl⟩)

/-- C6: when several answers carry the same fragment ID and everything
decrypts, the share handed to the combine primitive under that ID is the
one recovered from the last such answer in list order. -/
theorem recover_duplicate_id_last_wins (pr : Prims) (ans : List Answer)
    (val : Answer → Bytes)
    (hk : ∀ a ∈ ans, a.K ≤ ans.length)
    (hdec : ∀ a ∈ ans, answerShare pr a = .ok (val a))
    (j : Nat) (a : Answer)
    (hlast : ans.reverse.find? (fun x => x.ID == j) = some a) :
    ∃ m, Recover pr ans = (some (pr.sssCombine m), none) ∧ m j = some (val a) := by
  have hall : ∀ b ∈ ans, b.K ≤ ans.length ∧ answerShare pr b = .ok (val b) :=
    fun b hb => ⟨hk b hb, hdec b hb⟩
  have hloop := recoverLoop_append pr ans.length val ans [] (fun _ => none) hall
  rw [List.append_nil] at hloop
  refine ⟨ans.foldl (fun m' b => updMap m' b.ID (val b)) (fun _ => none), ?_, ?_⟩
  · unfold Recover; rw [hloop]; simp [recoverLoop]
  · rw [lookup_foldl val ans _ j, hlast]

/-- Witness for C6: two answers with ID 1 decrypting to [1] and [2]; the
map handed to combine holds [2], the last one's share, under id 1. -/
theorem recover_duplicate_id_last_wins_witness :
    ∃ m, Recover toyPrims [dupA, dupB] = (some (toyPrims.sssCombine m), none) ∧
      m 1 = some [2] :=
  recover_duplicate_id_last_wins toyPrims [dupA, dupB] valDup (by decide)
    (fun a ha => by
      rcases List.mem_cons.mp ha with rfl | ha'
      · rfl
      · rcases List.mem_singleton.mp ha' with rfl
        rfl)
    1 dupB rfl

/-- C5: a successful Split returns one fragment per question; ids are
assigned sequentially starting at 1 (hence unique and exactly the set
1..N); every fragment's K equals the threshold; and the fragment with
id i holds the AEAD seal of share number i of the share-split primitive,
under the key scrypt derives from that question's answer and the
fragment's salt. -/
theorem split_fragment_invariants (pr : Prims) (secret : Bytes)
    (qs : List (String × String)) (k n r p : Nat)
    (rng : Nat → Except String Bytes) (fs : List Fragment) (sh : Nat → Bytes)
    (hsplit : Split pr secret qs k n r p rng = (some fs, none))
    (hsh : pr.sssSplit qs.length k secret = .ok sh) :
    fs.length = qs.length ∧
    ∀ j, j < fs.length →
      (fs.getD j default).ID = j + 1 ∧
      (fs.getD j default).K = k ∧
      (fs.getD j default).Question = (qs.getD j ("", "")).1 ∧
      ∃ key,
        pr.scryptKey (qs.getD j ("", "")).2 (fs.getD j default).Salt n r p
          keySize = .ok key ∧
        pr.newChaCha key = .ok () ∧
        (fs.getD j default).Value =
          pr.aeadSeal key (fs.getD j default).Nonce
            (sh ((fs.getD j default).ID)) [] := by
  obtain ⟨sh', hsh', hloop⟩ := split_ok_elim hsplit
  rw [hsh] at hsh'
  injection hsh' with hsh''
  subst hsh''
  obtain ⟨hlen, hspec⟩ := splitLoop_spec pr k n r p sh rng qs 1 0 fs hloop
  refine ⟨hlen, ?_⟩
  intro j hj
  have hj' : j < qs.length := hlen ▸ hj
  obtain ⟨salt, nonce, key, hs, hn, hv⟩ := hspec j hj'
  rw [hv]
  exact ⟨by simp [Nat.add_comm], rfl, rfl, key, hs, hn, rfl⟩

/-- Witness for C5: the toy split over two questions yields two fragments
with ids 1 and 2 and threshold 2. -/
theorem split_fragment_invariants_witness :
    fsW.length = 2 ∧ (fsW.getD 0 default).ID = 1 ∧ (fsW.getD 1 default).ID = 2 ∧
      (fsW.getD 0 default).K = 2 := by
  have h := split_fragment_invariants toyPrims [1, 2, 3] qsW 2 16 8 1 toyRng fsW
    (fun _ => [1, 2, 3]) rfl rfl
  have h0 : (0 : Nat) < fsW.length := by rw [h.1]; decide
  have h1 : (1 : Nat) < fsW.length := by rw [h.1]; decide
  exact ⟨h.1, (h.2 0 h0).1, (h.2 1 h1).1, (h.2 0 h0).2.1⟩

/-- C3: an answer list containing an answer built from a split fragment
whose text differs from the one used at split time, or whose ciphertext,
nonce or salt was tampered with, makes Recover return an error and no
secret — the bad answer is never skipped.  The external contracts
assumed: the KDF is collision free in the (password, salt) pair; the AEAD
seal is injective in key, nonce and message; AEAD open releases a message
only for the exact seal of that message under the given key and nonce;
and — for a tampered ciphertext — the modification, made without the key,
is no valid seal under the honestly re-derived key (AEAD unforgeability),
unless the ciphertext is the untouched original. -/
theorem recover_wrong_answer_rejected (pr : Prims) (secret : Bytes)
    (qs : List (String × String)) (k n r p : Nat)
    (rng : Nat → Except String Bytes) (fs : List Fragment) (sh : Nat → Bytes)
    (hsplit : Split pr secret qs k n r p rng = (some fs, none))
    (hsh : pr.sssSplit qs.length k secret = .ok sh)
    (hkdfInj : ∀ w1 s1 w2 s2 k1 k2,
      pr.scryptKey w1 s1 n r p keySize = .ok k1 →
      pr.scryptKey w2 s2 n r p keySize = .ok k2 → k1 = k2 →
      w1 = w2 ∧ s1 = s2)
    (hsealInj : ∀ k1 n1 m1 k2 n2 m2 ad,
      pr.aeadSeal k1 n1 m1 ad = pr.aeadSeal k2 n2 m2 ad →
      k1 = k2 ∧ n1 = n2 ∧ m1 = m2)
    (htidy : ∀ key2 nonce2 c ad v,
      pr.aeadOpen key2 nonce2 c ad = .ok v → c = pr.aeadSeal key2 nonce2 v ad)
    (j : Nat) (hj : j < qs.length) (a : Answer)
    (haN : a.N = n) (haR : a.R = r) (haP : a.P = p)
    (hdiff : a.Answer ≠ (qs.getD j ("", "")).2 ∨
      a.Salt ≠ (fs.getD j default).Salt ∨
      a.Nonce ≠ (fs.getD j default).Nonce ∨
      a.Value ≠ (fs.getD j default).Value)
    (hnoforge : a.Value = (fs.getD j default).Value ∨
      ∀ k2 m, pr.scryptKey a.Answer a.Salt n r p keySize = .ok k2 →
        a.Value ≠ pr.aeadSeal k2 a.Nonce m [])
    (ans : List Answer) (hmem : a ∈ ans) :
    ∃ e, Recover pr ans = (none, some e) := by
  obtain ⟨sh', hsh', hloop⟩ := split_ok_elim hsplit
  rw [hsh] at hsh'
  injection hsh' with hsh''
  subst hsh''
  obtain ⟨hlen, hspec⟩ := splitLoop_spec pr k n r p sh rng qs 1 0 fs hloop
  obtain ⟨salt, nonce, key, hs, hn, hv⟩ := hspec j hj
  have hFsalt : (fs.getD j default).Salt = salt := by rw [hv]
  have hFnonce : (fs.getD j default).Nonce = nonce := by rw [hv]
  have hFval : (fs.getD j default).Value =
      pr.aeadSeal key nonce (sh (1 + j)) [] := by rw [hv]
  have hbad : ∀ v, answerShare pr a ≠ .ok v := by
    intro v hok
    unfold answerShare at hok
    rw [haN, haR, haP] at hok
    cases hscr : pr.scryptKey a.Answer a.Salt n r p keySize with
    | error e => rw [hscr] at hok; simp at hok
    | ok k2 =>
      rw [hscr] at hok
      simp only [] at hok
      cases hcc : pr.newChaCha k2 with
      | error e => rw [hcc] at hok; simp at hok
      | ok u =>
        cases u
        rw [hcc] at hok
        simp only [] at hok
        have hc := htidy k2 a.Nonce a.Value [] v hok
        rcases hnoforge with hval | hforge
        · rw [hval, hFval] at hc
          obtain ⟨hkeq, hneq, hveq⟩ :=
            hsealInj key nonce (sh (1 + j)) k2 a.Nonce v [] hc
          obtain ⟨hweq, hseq⟩ := hkdfInj a.Answer a.Salt
            ((qs.getD j ("", "")).2) salt k2 key hscr hs hkeq.symm
          rcases hdiff with h | h | h | h
          · exact h hweq
          · exact h (by rw [hseq, hFsalt])
          · exact h (by rw [← hneq, hFnonce])
          · exact h hval
        · exact hforge k2 v hscr hc
  obtain ⟨e, herr⟩ := recoverLoop_mem_error pr ans.length ans (fun _ => none)
    a hmem hbad
  exact ⟨e, by unfold Recover; rw [herr]⟩

/-- Witness for C3: replacing the second toy fragment's ciphertext by [0]
(keeping the correct answer text) makes Recover fail. -/
theorem recover_wrong_answer_rejected_witness :
    ∃ e, Recover toyPrims
      [({ toFragment := { fsW.getD 1 default with Value := [0] },
          Answer := "a2" } : Answer)] = (none, some e) := by
  refine recover_wrong_answer_rejected toyPrims [1, 2, 3] qsW 2 16 8 1 toyRng fsW
    (fun _ => [1, 2, 3]) rfl rfl
    (fun w1 s1 w2 s2 k1 k2 h1 h2 h =>
      toyScrypt_jointInj 16 8 1 keySize 16 8 1 keySize w1 w2 s1 s2 k1 k2 h1 h2 h)
    (fun k1 n1 m1 k2 n2 m2 ad h => toySeal_inj k1 n1 m1 k2 n2 m2 ad h)
    (fun key2 nonce2 c ad v h => toyOpen_tidy key2 nonce2 c ad v h)
    1 (by decide)
    ({ toFragment := { fsW.getD 1 default with Value := [0] },
       Answer := "a2" } : Answer)
    (by decide) (by decide) (by decide)
    (Or.inr (Or.inr (Or.inr (by decide))))
    (Or.inr ?_)
    [({ toFragment := { fsW.getD 1 default with Value := [0] },
        Answer := "a2" } : Answer)]
    (List.mem_singleton.mpr rfl)
  intro k2 m hk2 h
  simp [toyPrims, toySeal] at h

/-- C1: round trip.  For a secret, at least two question/answer pairs and
a threshold 1 < K ≤ N, if Split succeeds then Recover applied to any K of
the returned fragments — each paired with the correct answer text of its
question — returns exactly the original secret with no error.  The
external collaborators are assumed to meet their contracts: the combine
primitive recombines any share map that agrees with the split's shares on
at least K ids of 1..N and is empty elsewhere, and the AEAD open inverts
seal under matching key, nonce and associated data. -/
theorem split_recover_roundtrip (pr : Prims) (secret : Bytes)
    (qs : List (String × String)) (k n r p : Nat)
    (rng : Nat → Except String Bytes) (fs : List Fragment) (sh : Nat → Bytes)
    (hN : 2 ≤ qs.length) (hK1 : 1 < k) (hKN : k ≤ qs.length)
    (hsplit : Split pr secret qs k n r p rng = (some fs, none))
    (hsh : pr.sssSplit qs.length k secret = .ok sh)
    (hcomb : ∀ (m : Nat → Option Bytes) (ids : List Nat), ids.Nodup →
      (∀ j ∈ ids, 1 ≤ j ∧ j ≤ qs.length) → k ≤ ids.length →
      (∀ j ∈ ids, m j = some (sh j)) → (∀ j, j ∉ ids → m j = none) →
      pr.sssCombine m = secret)
    (hopen : ∀ key nonce msg ad,
      pr.aeadOpen key nonce (pr.aeadSeal key nonce msg ad) ad = .ok msg)
    (idxs : List Nat) (hnd : idxs.Nodup) (hilen : idxs.length = k)
    (hbound : ∀ i ∈ idxs, i < qs.length) :
    Recover pr (idxs.map (fun i =>
      ({ toFragment := fs.getD i default,
         Answer := (qs.getD i ("", "")).2 } : Answer))) = (some secret, none) := by
  obtain ⟨sh', hsh', hloop⟩ := split_ok_elim hsplit
  rw [hsh] at hsh'
  injection hsh' with hsh''
  subst hsh''
  obtain ⟨hlenfs, hspec⟩ := splitLoop_spec pr k n r p sh rng qs 1 0 fs hloop
  set f : Nat → Answer := fun i =>
    ({ toFragment := fs.getD i default,
       Answer := (qs.getD i ("", "")).2 } : Answer) with hf
  set ans : List Answer := idxs.map f with hans
  have htot : ans.length = k := by rw [hans, List.length_map, hilen]
  have hID : ∀ i ∈ idxs, (f i).ID = i + 1 := by
    intro i hi
    obtain ⟨salt, nonce, key, hs, hn, hv⟩ := hspec i (hbound i hi)
    have e1 : (f i).ID = (fs.getD i default).ID := rfl
    rw [e1, hv]
    show 1 + i = i + 1
    omega
  have hK : ∀ i ∈ idxs, (f i).K = k := by
    intro i hi
    obtain ⟨salt, nonce, key, hs, hn, hv⟩ := hspec i (hbound i hi)
    have e1 : (f i).K = (fs.getD i default).K := rfl
    rw [e1, hv]
  have hShare : ∀ i ∈ idxs, answerShare pr (f i) = .ok (sh ((f i).ID)) := by
    intro i hi
    obtain ⟨salt, nonce, key, hs, hn, hv⟩ := hspec i (hbound i hi)
    simp only [hf, answerShare, hv]
    rw [hs]
    simp only []
    rw [hn]
    simp only []
    rw [hopen]
  have hall : ∀ b ∈ ans, b.K ≤ ans.length ∧
      answerShare pr b = .ok (sh b.ID) := by
    intro b hb
    rw [hans] at hb
    obtain ⟨i, hi, rfl⟩ := List.mem_map.mp hb
    exact ⟨by rw [hK i hi, htot], hShare i hi⟩
  have hloop2 := recoverLoop_append pr ans.length (fun b => sh b.ID) ans []
    (fun _ => none) hall
  rw [List.append_nil] at hloop2
  have hrec : Recover pr ans =
      (some (pr.sssCombine (ans.foldl
        (fun m' b => updMap m' b.ID (sh b.ID)) (fun _ => none))), none) := by
    unfold Recover; rw [hloop2]; simp [recoverLoop]
  set M : Nat → Option Bytes :=
    ans.foldl (fun m' b => updMap m' b.ID (sh b.ID)) (fun _ => none) with hM
  set ids : List Nat := idxs.map (fun i => i + 1) with hids
  have hMin : ∀ j ∈ ids, M j = some (sh j) := by
    intro j hj
    rw [hids] at hj
    obtain ⟨i, hi, rfl⟩ := List.mem_map.mp hj
    rw [hM, lookup_foldl]
    have hmem : f i ∈ ans.reverse := by
      rw [List.mem_reverse, hans]
      exact List.mem_map.mpr ⟨i, hi, rfl⟩
    cases hfind : ans.reverse.find? (fun x => x.ID == i + 1) with
    | none =>
      rw [List.find?_eq_none] at hfind
      have hfi : ((f i).ID == i + 1) = true := by
        rw [beq_iff_eq]; exact hID i hi
      exact absurd hfi (by simpa using hfind (f i) hmem)
    | some b =>
      have hpb := List.find?_some hfind
      simp only [beq_iff_eq] at hpb
      simp [hpb]
  have hMout : ∀ j, j ∉ ids → M j = none := by
    intro j hj
    rw [hM, lookup_foldl]
    cases hfind : ans.reverse.find? (fun x => x.ID == j) with
    | none => rfl
    | some b =>
      have hb : b ∈ ans.reverse := List.mem_of_find?_eq_some hfind
      have hpb := List.find?_some hfind
      simp only [beq_iff_eq] at hpb
      rw [List.mem_reverse, hans] at hb
      obtain ⟨i, hi, rfl⟩ := List.mem_map.mp hb
      have hji : j = i + 1 := by rw [← hpb, hID i hi]
      exact absurd (hids ▸ List.mem_map.mpr ⟨i, hi, hji.symm⟩) hj
  have hndids : ids.Nodup := by
    rw [hids]
    exact hnd.map (fun a b h => by omega)
  have hrange : ∀ j ∈ ids, 1 ≤ j ∧ j ≤ qs.length := by
    intro j hj
    rw [hids] at hj
    obtain ⟨i, hi, rfl⟩ := List.mem_map.mp hj
    have := hbound i hi
    omega
  have hcard : k ≤ ids.length := by
    rw [hids, List.length_map, hilen]
  rw [hrec, hcomb M ids hndids hrange hcard hMin hMout]

/-- Witness for C1: splitting [1, 2, 3] over the two toy questions with
threshold 2 and recovering from both fragments with their correct answer
texts returns [1, 2, 3]. -/
theorem split_recover_roundtrip_witness :
    Recover toyPrims ([0, 1].map (fun i =>
      ({ toFragment := fsW.getD i default,
         Answer := (qsW.getD i ("", "")).2 } : Answer))) =
      (some [1, 2, 3], none) :=
  split_recover_roundtrip toyPrims [1, 2, 3] qsW 2 16 8 1 toyRng fsW
    (fun _ => [1, 2, 3]) (by decide) (by decide) (by decide) rfl rfl
    (fun m ids h1 h2 h3 h4 h5 =>
      toyCombine_contract [1, 2, 3] 2 2 (by decide) (by decide) m ids
        h1 h2 h3 h4 h5)
    (fun key nonce msg ad => toyOpen_toySeal key nonce msg ad)
    [0, 1] (by decide) rfl (by decide)

end Horcrux

